import Mathlib

/-!
Verification of the paper-trading portfolio engine in `src/main.py`.

The embedding mirrors the Python code:
  * a portfolio entry (a "lot") is the dict appended at lines 112-117:
    keys `Stock`, `Quantity`, `Buy Price`, `Buy Date`.  The buy price is an
    `Option ℚ` because the code stores `latest_price` without checking it
    for `None` (line 115), so `null` can reach the ledger.
  * `calculate_totals` (lines 41-69) groups entries by exact symbol string,
    computes per-stock totals, and formats the per-stock monetary fields as
    rupee strings.  Arithmetic on a `None` price raises a `TypeError` in
    Python; such a crash is modelled by `Option.none` results.
  * the sell loop (lines 142-158) scans the list in order, breaks at the
    first entry with matching symbol, and either decrements it (when its
    quantity covers the whole request, saving and reporting a profit) or
    reports "Not enough quantity" without mutation.
  * buy (lines 110-119) unconditionally appends the new entry and saves.
  * persistence (lines 29-38) serializes the list of entries to JSON.
-/

/-- One portfolio entry, the dict built at `main.py` lines 112-117.
`buyPrice` is optional: the code stores `latest_price` there without a
`None` check, so the field can be `null`. -/
structure Lot where
  stock : String
  quantity : Int
  buyPrice : Option ℚ
  buyDate : String
deriving Repr, DecidableEq

/-- The price oracle, `get_latest_price` (lines 22-26): `none` models the
`None` returned when no data is available. -/
def Oracle : Type := String → Option ℚ

/-- The message the sell branch surfaces to the user. -/
inductive SellMsg where
  /-- Line 154: `st.success(... Profit/Loss ...)` with the computed amount. -/
  | success (profitLoss : ℚ)
  /-- Line 157: `st.error("Not enough quantity in the portfolio to sell.")`. -/
  | notEnough
  /-- Line 167: `st.error("Failed to fetch the latest price for selling.")`. -/
  | priceFetchFailed
deriving Repr, DecidableEq

/-- Result of the sell branch: the portfolio after the loop, the message
shown (none when the loop finds no matching entry and falls through
silently), and whether `save_portfolio` was called. -/
structure SellResult where
  portfolio : List Lot
  msg : Option SellMsg
  saved : Bool
deriving Repr, DecidableEq

/-- The `for entry in st.session_state.portfolio` loop at lines 142-158.
The loop breaks at the first entry whose `Stock` matches; if that entry's
quantity covers the whole request it is decremented, the ledger saved and a
profit reported, otherwise an error is shown and nothing is mutated.
Computing `(sell_price - buy_price) * quantity_to_sell` (line 147) with a
`null` buy price raises a `TypeError` before any mutation: modelled as
`none`. -/
def sellScan (stockToSell : String) (quantityToSell : Int) (sellPrice : ℚ) :
    List Lot → Option (List Lot × Option SellMsg × Bool)
  | [] => some ([], none, false)
  | entry :: rest =>
    if entry.stock = stockToSell then
      if quantityToSell ≤ entry.quantity then
        match entry.buyPrice with
        | some buyPrice =>
            some ({ entry with quantity := entry.quantity - quantityToSell } :: rest,
              some (SellMsg.success ((sellPrice - buyPrice) * (quantityToSell : ℚ))), true)
        | none => none
      else
        some (entry :: rest, some SellMsg.notEnough, false)
    else
      (sellScan stockToSell quantityToSell sellPrice rest).map
        (fun r => (entry :: r.1, r.2.1, r.2.2))

/-- The whole sell branch (lines 136-167): fetch the latest price, then run
the scan; when the price is unavailable an error is shown and nothing is
touched. -/
def sell (oracle : Oracle) (pf : List Lot) (stockToSell : String)
    (quantityToSell : Int) : Option SellResult :=
  match oracle stockToSell with
  | some sellPrice =>
      (sellScan stockToSell quantityToSell sellPrice pf).map
        (fun r => ⟨r.1, r.2.1, r.2.2⟩)
  | none => some ⟨pf, some SellMsg.priceFetchFailed, false⟩

/-- The buy branch (lines 110-119): append the new entry — with whatever
`latest_price` currently holds, `None` included — and save.  The `Bool` is
whether `save_portfolio` ran (it always does). -/
def buy (latestPrice : Option ℚ) (pf : List Lot) (stockSymbol : String)
    (quantityToBuy : Int) (buyDate : String) : List Lot × Bool :=
  (pf ++ [⟨stockSymbol, quantityToBuy, latestPrice, buyDate⟩], true)

/-- The Clear Portfolio branch (lines 170-172): replace the ledger by the
empty list and save. -/
def clearPortfolio : List Lot × Bool := ([], true)

/-! ## Aggregation: `calculate_totals` (lines 41-69) -/

/-- Sum of a list of optional rationals; `none` propagates, modelling the
`TypeError` Python raises when `sum` meets a `None` operand.  (Python adds
left to right; rational addition is commutative and associative, so the
value is the same.) -/
def sumOpt : List (Option ℚ) → Option ℚ
  | [] => some 0
  | none :: _ => none
  | some a :: xs => (sumOpt xs).map (fun b => a + b)

/-- Line 46: `set(item['Stock'] for item in portfolio)` — the distinct
symbols, each once.  Python set iteration order is unspecified
(hash-randomized); `dedup` keeps first occurrences merely to have some
enumeration, and only order-independent consequences — sums, counts,
membership, length — are ever read off it. -/
def distinctStocks (pf : List Lot) : List String :=
  (pf.map Lot.stock).dedup

/-- Line 47: the entries whose `Stock` equals the given symbol, exact
string comparison. -/
def stockEntries (pf : List Lot) (stock : String) : List Lot :=
  pf.filter (fun entry => entry.stock = stock)

/-- Line 48: `sum(entry['Quantity'] for entry in stock_entries)`. -/
def totalQuantityOf (entries : List Lot) : Int :=
  (entries.map Lot.quantity).sum

/-- Line 49: `sum(entry['Buy Price'] * entry['Quantity'] ...)`; a `null`
buy price crashes the sum. -/
def totalInvestedOf (entries : List Lot) : Option ℚ :=
  sumOpt (entries.map (fun entry =>
    entry.buyPrice.map (fun p => p * (entry.quantity : ℚ))))

/-- The numeric per-stock figures computed at lines 48-56, before any
formatting. -/
structure StockAggregate where
  stock : String
  totalQuantity : Int
  totalInvested : ℚ
  currentValue : ℚ
  profitLoss : ℚ
deriving Repr, DecidableEq

/-- Lines 47-56 for one symbol: totals over its entries, then current value
and profit/loss from the latest price, falling back to the invested amount
(profit zero) when the price is unavailable. -/
def stockAggregate (oracle : Oracle) (pf : List Lot) (stock : String) :
    Option StockAggregate :=
  let entries := stockEntries pf stock
  let tq := totalQuantityOf entries
  (totalInvestedOf entries).map (fun ti =>
    match oracle stock with
    | some latestPrice =>
        ⟨stock, tq, ti, (tq : ℚ) * latestPrice, (tq : ℚ) * latestPrice - ti⟩
    | none => ⟨stock, tq, ti, ti, 0⟩)

/-- Round a rational to the nearest integer, ties to even — the rounding
Python's fixed-point formatting applies. -/
def roundHalfEven (q : ℚ) : Int :=
  let f := ⌊q⌋
  if q - (f : ℚ) < 1 / 2 then f
  else if (1 : ℚ) / 2 < q - (f : ℚ) then f + 1
  else if f % 2 = 0 then f else f + 1

/-- Python's `f"{x:.2f}"`: two decimal places. -/
def fmt2 (q : ℚ) : String :=
  let cents := roundHalfEven (q * 100)
  let sign := if cents < 0 then "-" else ""
  let a := cents.natAbs
  sign ++ toString (a / 100) ++ "." ++
    (if a % 100 < 10 then "0" else "") ++ toString (a % 100)

/-- The rupee formatting `f"₹{x:.2f}"` applied at lines 61-63. -/
def fmtRupee (q : ℚ) : String := "₹" ++ fmt2 q

/-- One element of `stock_totals`, the dict built at lines 58-64: the
monetary fields are display-formatted strings, not numbers. -/
structure StockTotal where
  stock : String
  quantity : Int
  totalInvested : String
  currentValue : String
  profitLoss : String
deriving Repr, DecidableEq

/-- Lines 58-64: the formatted row appended to `stock_totals`. -/
def toStockTotal (a : StockAggregate) : StockTotal :=
  ⟨a.stock, a.totalQuantity, fmtRupee a.totalInvested,
   fmtRupee a.currentValue, fmtRupee a.profitLoss⟩

/-- Map a fallible function over a list, failing when any element fails —
the shape of the per-symbol loop, where one `TypeError` aborts the whole
call. -/
def mapOpt (f : α → Option β) : List α → Option (List β)
  | [] => some []
  | x :: xs =>
    match f x with
    | some y => (mapOpt f xs).map (fun ys => y :: ys)
    | none => none

/-- `calculate_totals` (lines 41-69): the formatted per-stock rows plus the
two numeric portfolio-wide scalars `total_invested` and
`total_profit_loss`. -/
def calculate_totals (oracle : Oracle) (pf : List Lot) :
    Option (List StockTotal × ℚ × ℚ) :=
  (mapOpt (stockAggregate oracle pf) (distinctStocks pf)).map (fun aggs =>
    (aggs.map toStockTotal,
     (aggs.map StockAggregate.totalInvested).sum,
     (aggs.map StockAggregate.profitLoss).sum))

/-! ## Persistence: `load_portfolio` / `save_portfolio` (lines 29-38) -/

/-- JSON values, as far as the portfolio file needs them. -/
inductive Json where
  | null
  | num (q : ℚ)
  | str (s : String)
  | arr (elems : List Json)
  | obj (fields : List (String × Json))

/-- How `json.dump` renders one portfolio entry (the dict of lines
112-117): integers and floats both become JSON numbers, `None` becomes
`null`. -/
def lotToJson (l : Lot) : Json :=
  Json.obj [("Stock", Json.str l.stock),
            ("Quantity", Json.num (l.quantity : ℚ)),
            ("Buy Price", match l.buyPrice with
                          | some p => Json.num p
                          | none => Json.null),
            ("Buy Date", Json.str l.buyDate)]

/-- How `json.load` reads one entry back: the same shape, an integral
number for `Quantity`, a number or `null` for `Buy Price`. -/
def jsonToLot : Json → Option Lot
  | Json.obj [("Stock", Json.str s), ("Quantity", Json.num q),
              ("Buy Price", bp), ("Buy Date", Json.str d)] =>
    if q.den = 1 then
      match bp with
      | Json.num p => some ⟨s, q.num, some p, d⟩
      | Json.null => some ⟨s, q.num, none, d⟩
      | _ => none
    else none
  | _ => none

/-- `save_portfolio` (lines 36-38): the whole ledger as one JSON array. -/
def save_portfolio (pf : List Lot) : Json := Json.arr (pf.map lotToJson)

/-- `load_portfolio` (lines 29-33): `none` for the file argument models a
missing `portfolio.json`, in which case the ledger starts empty; otherwise
the stored JSON array is decoded entry by entry. -/
def load_portfolio : Option Json → Option (List Lot)
  | none => some []
  | some (Json.arr elems) => mapOpt jsonToLot elems
  | some _ => none

/-- The invested amount `buy_price * quantity` of one entry, as a total
function; it agrees with the code whenever the buy price is present. -/
def investedOf (e : Lot) : ℚ := e.buyPrice.getD 0 * (e.quantity : ℚ)

/-- The value `stockAggregate` returns when no entry of the group has a
`null` buy price, written out as a total function (a proof device used to
state what aggregation computes). -/
def aggValue (oracle : Oracle) (pf : List Lot) (s : String) : StockAggregate :=
  match oracle s with
  | some latestPrice =>
      ⟨s, totalQuantityOf (stockEntries pf s),
       ((stockEntries pf s).map investedOf).sum,
       (totalQuantityOf (stockEntries pf s) : ℚ) * latestPrice,
       (totalQuantityOf (stockEntries pf s) : ℚ) * latestPrice -
         ((stockEntries pf s).map investedOf).sum⟩
  | none =>
      ⟨s, totalQuantityOf (stockEntries pf s),
       ((stockEntries pf s).map investedOf).sum,
       ((stockEntries pf s).map investedOf).sum, 0⟩

/-! ## Helper lemmas about the sell scan -/

theorem sellScan_no_match (s : String) (q : Int) (p : ℚ) (pf : List Lot)
    (h : ∀ e ∈ pf, e.stock ≠ s) : sellScan s q p pf = some (pf, none, false) := by
  induction pf with
  | nil => rfl
  | cons entry rest ih =>
      have hne : entry.stock ≠ s := h entry (List.mem_cons_self _ _)
      have hrest : ∀ e ∈ rest, e.stock ≠ s := fun e he => h e (List.mem_cons_of_mem _ he)
      simp [sellScan, hne, ih hrest]

theorem sellScan_skip_front (s : String) (q : Int) (p : ℚ) (pre pf : List Lot)
    (h : ∀ e ∈ pre, e.stock ≠ s) :
    sellScan s q p (pre ++ pf) =
      (sellScan s q p pf).map (fun r => (pre ++ r.1, r.2.1, r.2.2)) := by
  induction pre with
  | nil => cases hpf : sellScan s q p pf <;> simp [hpf]
  | cons entry pre ih =>
      have hne : entry.stock ≠ s := h entry (List.mem_cons_self _ _)
      have hpre : ∀ e ∈ pre, e.stock ≠ s := fun e he => h e (List.mem_cons_of_mem _ he)
      have step : sellScan s q p ((entry :: pre) ++ pf) =
          (sellScan s q p (pre ++ pf)).map (fun r => (entry :: r.1, r.2.1, r.2.2)) := by
        simp [sellScan, hne]
      rw [step, ih hpre]
      cases hpf : sellScan s q p pf <;> simp

theorem sellScan_match_sufficient (s : String) (q : Int) (p bp : ℚ)
    (entry : Lot) (rest : List Lot) (he : entry.stock = s)
    (hbp : entry.buyPrice = some bp) (hq : q ≤ entry.quantity) :
    sellScan s q p (entry :: rest) =
      some ({ entry with quantity := entry.quantity - q } :: rest,
        some (SellMsg.success ((p - bp) * (q : ℚ))), true) := by
  simp [sellScan, he, hq, hbp]

theorem sellScan_match_crash (s : String) (q : Int) (p : ℚ)
    (entry : Lot) (rest : List Lot) (he : entry.stock = s)
    (hbp : entry.buyPrice = none) (hq : q ≤ entry.quantity) :
    sellScan s q p (entry :: rest) = none := by
  simp [sellScan, he, hq, hbp]

theorem sellScan_match_insufficient (s : String) (q : Int) (p : ℚ)
    (entry : Lot) (rest : List Lot) (he : entry.stock = s)
    (hq : entry.quantity < q) :
    sellScan s q p (entry :: rest) =
      some (entry :: rest, some SellMsg.notEnough, false) := by
  simp [sellScan, he, not_le.mpr hq]

/-- Any quantity appearing after a scan was already there, or is a
guarded decrement `entry.quantity - q` with `q ≤ entry.quantity`. -/
theorem sellScan_quantity_nonneg (s : String) (q : Int) (p : ℚ)
    (pf : List Lot) (hpf : ∀ e ∈ pf, 0 ≤ e.quantity)
    (r : List Lot × Option SellMsg × Bool) (hr : sellScan s q p pf = some r) :
    ∀ e ∈ r.1, 0 ≤ e.quantity := by
  induction pf generalizing r with
  | nil =>
      simp only [sellScan, Option.some.injEq] at hr
      subst hr; intro e he; cases he
  | cons entry rest ih =>
      have hentry : 0 ≤ entry.quantity := hpf entry (List.mem_cons_self _ _)
      have hrest : ∀ e ∈ rest, 0 ≤ e.quantity := fun e he => hpf e (List.mem_cons_of_mem _ he)
      by_cases hs : entry.stock = s
      · by_cases hq : q ≤ entry.quantity
        · cases hbp : entry.buyPrice with
          | none => simp [sellScan, hs, hq, hbp] at hr
          | some bp =>
              rw [sellScan_match_sufficient s q p bp entry rest hs hbp hq] at hr
              cases hr
              intro e he
              rcases List.mem_cons.mp he with rfl | hmem
              · exact Int.sub_nonneg.mpr hq
              · exact hrest e hmem
        · rw [sellScan_match_insufficient s q p entry rest hs (not_le.mp hq)] at hr
          cases hr
          exact hpf
      · simp only [sellScan, if_neg hs, Option.map_eq_some'] at hr
        obtain ⟨r', hr', rfl⟩ := hr
        intro e he
        rcases List.mem_cons.mp he with rfl | hmem
        · exact hentry
        · exact ih hrest r' hr' e hmem

/-- When the scan reports "Not enough quantity" the list is returned
unchanged and unsaved. -/
theorem sellScan_notEnough_unchanged (s : String) (q : Int) (p : ℚ)
    (pf pf' : List Lot) (sv : Bool)
    (hr : sellScan s q p pf = some (pf', some SellMsg.notEnough, sv)) :
    pf' = pf ∧ sv = false := by
  induction pf generalizing pf' sv with
  | nil => simp [sellScan] at hr
  | cons entry rest ih =>
      by_cases hs : entry.stock = s
      · by_cases hq : q ≤ entry.quantity
        · cases hbp : entry.buyPrice with
          | none => simp [sellScan, hs, hq, hbp] at hr
          | some bp =>
              rw [sellScan_match_sufficient s q p bp entry rest hs hbp hq] at hr
              simp at hr
        · rw [sellScan_match_insufficient s q p entry rest hs (not_le.mp hq)] at hr
          simp only [Option.some.injEq, Prod.mk.injEq] at hr
          exact ⟨hr.1.symm, hr.2.2.symm⟩
      · simp only [sellScan, if_neg hs, Option.map_eq_some'] at hr
        obtain ⟨⟨l, m, b⟩, hr', heq⟩ := hr
        simp only [Prod.mk.injEq] at heq
        obtain ⟨hl, hm, hb⟩ := heq
        obtain ⟨h1, h2⟩ := ih l b (by rw [hr', hm, hb])
        constructor
        · rw [← hl, h1]
        · exact hb ▸ h2

theorem sumOpt_none_of_mem (l : List (Option ℚ)) (h : none ∈ l) : sumOpt l = none := by
  induction l with
  | nil => cases h
  | cons x xs ih =>
      rcases List.mem_cons.mp h with rfl | hmem
      · rfl
      · cases x with
        | none => rfl
        | some a => simp [sumOpt, ih hmem]

theorem mapOpt_none_of_mem (f : α → Option β) (l : List α) (x : α)
    (hx : x ∈ l) (hfx : f x = none) : mapOpt f l = none := by
  induction l with
  | nil => cases hx
  | cons y ys ih =>
      rcases List.mem_cons.mp hx with rfl | hmem
      · simp [mapOpt, hfx]
      · cases hfy : f y with
        | none => simp [mapOpt, hfy]
        | some b => simp [mapOpt, hfy, ih hmem]

/-! ## Claim theorems about sell and buy -/

/-- C1 counterexample: with lots of quantities 3 then 10 for X and a sell
of 4 at price 120, the code reports "Not enough quantity" and changes
nothing — it does not apply the sale to the second lot, whose quantity 10
could cover the request, contrary to the claim that the scan picks the
first lot with sufficient quantity. -/
theorem sell_blocks_at_first_matching_lot_cex :
    sell (fun _ => some 120)
        [⟨"X", 3, some 100, "2024-01-02"⟩, ⟨"X", 10, some 100, "2024-01-03"⟩] "X" 4 =
      some ⟨[⟨"X", 3, some 100, "2024-01-02"⟩, ⟨"X", 10, some 100, "2024-01-03"⟩],
        some SellMsg.notEnough, false⟩ ∧
    sell (fun _ => some 120)
        [⟨"X", 3, some 100, "2024-01-02"⟩, ⟨"X", 10, some 100, "2024-01-03"⟩] "X" 4 ≠
      some ⟨[⟨"X", 3, some 100, "2024-01-02"⟩, ⟨"X", 6, some 100, "2024-01-03"⟩],
        some (SellMsg.success 80), true⟩ := by
  constructor
  · simp [sell, sellScan]
  · simp [sell, sellScan]

/-- C1 amended: the sale is applied to the first lot whose symbol matches,
and only when that single lot's remaining quantity covers the whole
request; that lot alone is decremented, the ledger is saved and the profit
is (sell price - that lot's buy price) * quantity.  When the first
matching lot is insufficient the sale fails with "Not enough quantity",
mutating and saving nothing, even if a later lot could cover it. -/
theorem sell_first_matching_lot_rule (oracle : Oracle) (pre : List Lot)
    (entry : Lot) (rest : List Lot) (s : String) (q : Int) (p bp : ℚ)
    (hpre : ∀ e ∈ pre, e.stock ≠ s) (he : entry.stock = s)
    (hbp : entry.buyPrice = some bp) (hor : oracle s = some p) :
    (q ≤ entry.quantity →
      sell oracle (pre ++ entry :: rest) s q =
        some ⟨pre ++ { entry with quantity := entry.quantity - q } :: rest,
          some (SellMsg.success ((p - bp) * (q : ℚ))), true⟩) ∧
    (entry.quantity < q →
      sell oracle (pre ++ entry :: rest) s q =
        some ⟨pre ++ entry :: rest, some SellMsg.notEnough, false⟩) := by
  constructor
  · intro hq
    simp only [sell, hor, sellScan_skip_front s q p pre _ hpre,
      sellScan_match_sufficient s q p bp entry rest he hbp hq]
    rfl
  · intro hq
    simp only [sell, hor, sellScan_skip_front s q p pre _ hpre,
      sellScan_match_insufficient s q p entry rest he hq]
    rfl

theorem sell_first_matching_lot_rule_witness :
    sell (fun _ => some 120) [⟨"X", 10, some 100, "2024-01-01"⟩] "X" 4 =
      some ⟨[⟨"X", 6, some 100, "2024-01-01"⟩], some (SellMsg.success 80), true⟩ := by
  have h := (sell_first_matching_lot_rule (fun _ => some 120) []
    ⟨"X", 10, some 100, "2024-01-01"⟩ [] "X" 4 120 100
    (by simp) rfl rfl rfl).1 (by decide)
  simp only [List.nil_append] at h
  convert h using 4
  norm_num

/-- C3 counterexample: lots of quantities 3 then 5 for X and a sell of 4 —
the second lot alone holds 5 ≥ 4, so under the claim the sale must not
fail with InsufficientQuantity, yet the code reports "Not enough
quantity". -/
theorem sell_insufficient_despite_coverable_lot_cex :
    sell (fun _ => some 9)
        [⟨"X", 3, some 2, "2024-03-02"⟩, ⟨"X", 5, some 2, "2024-03-03"⟩] "X" 4 =
      some ⟨[⟨"X", 3, some 2, "2024-03-02"⟩, ⟨"X", 5, some 2, "2024-03-03"⟩],
        some SellMsg.notEnough, false⟩ ∧
    (4 : Int) ≤ (⟨"X", 5, some 2, "2024-03-03"⟩ : Lot).quantity := by
  constructor
  · simp [sell, sellScan]
  · decide

/-- C3 amended: the sale fails with "Not enough quantity" exactly when the
first lot of the requested symbol (in ledger order) holds less than the
requested quantity — even when a later lot or the sum across lots could
cover it — and on that failure every lot is unchanged and no save
occurs. -/
theorem sell_insufficient_iff_first_matching_lot_small (oracle : Oracle)
    (pre : List Lot) (entry : Lot) (rest : List Lot) (s : String) (q : Int) (p : ℚ)
    (hpre : ∀ e ∈ pre, e.stock ≠ s) (he : entry.stock = s)
    (hor : oracle s = some p) :
    (entry.quantity < q →
      sell oracle (pre ++ entry :: rest) s q =
        some ⟨pre ++ entry :: rest, some SellMsg.notEnough, false⟩) ∧
    (q ≤ entry.quantity →
      ∀ r : SellResult, sell oracle (pre ++ entry :: rest) s q = some r →
        r.msg ≠ some SellMsg.notEnough) := by
  constructor
  · intro hq
    simp only [sell, hor, sellScan_skip_front s q p pre _ hpre,
      sellScan_match_insufficient s q p entry rest he hq]
    rfl
  · intro hq r hr hmsg
    cases hbp : entry.buyPrice with
    | none =>
        have hv : sell oracle (pre ++ entry :: rest) s q = none := by
          simp only [sell, hor, sellScan_skip_front s q p pre _ hpre,
            sellScan_match_crash s q p entry rest he hbp hq]
          rfl
        rw [hv] at hr
        cases hr
    | some bp =>
        have hv : sell oracle (pre ++ entry :: rest) s q =
            some ⟨pre ++ { entry with quantity := entry.quantity - q } :: rest,
              some (SellMsg.success ((p - bp) * (q : ℚ))), true⟩ := by
          simp only [sell, hor, sellScan_skip_front s q p pre _ hpre,
            sellScan_match_sufficient s q p bp entry rest he hbp hq]
          rfl
        rw [hv] at hr
        injection hr with hr
        rw [← hr] at hmsg
        simp at hmsg

theorem sell_insufficient_iff_first_matching_lot_small_witness :
    sell (fun _ => some 7) [⟨"Z", 3, some 2, "2024-04-01"⟩] "Z" 4 =
      some ⟨[⟨"Z", 3, some 2, "2024-04-01"⟩], some SellMsg.notEnough, false⟩ := by
  have h := (sell_insufficient_iff_first_matching_lot_small (fun _ => some 7) []
    ⟨"Z", 3, some 2, "2024-04-01"⟩ [] "Z" 4 7 (by simp) rfl rfl).1 (by decide)
  simpa using h

/-- C2: contrary to the claim, the buy branch never checks the fetched
price for availability; with `latest_price = None` it still appends a lot
— whose buy price field is `null` — and saves the ledger.  Evaluating
aggregation on any ledger holding that lot then crashes (a Python
`TypeError` at `entry['Buy Price'] * entry['Quantity']`), modelled as a
`none` result. -/
theorem buy_unavailable_price_appends_null_lot (oracle : Oracle)
    (pf : List Lot) (s : String) (q : Int) (dt : String) :
    buy none pf s q dt = (pf ++ [⟨s, q, none, dt⟩], true) ∧
    calculate_totals oracle (buy none pf s q dt).1 = none := by
  constructor
  · rfl
  · have hmem : (⟨s, q, none, dt⟩ : Lot) ∈ (buy none pf s q dt).1 :=
      List.mem_append.mpr (Or.inr (List.mem_singleton.mpr rfl))
    have hs : s ∈ distinctStocks (buy none pf s q dt).1 :=
      List.mem_dedup.mpr (List.mem_map.mpr ⟨_, hmem, rfl⟩)
    have hentries : (⟨s, q, none, dt⟩ : Lot) ∈ stockEntries (buy none pf s q dt).1 s :=
      List.mem_filter.mpr ⟨hmem, by simp⟩
    have hti : totalInvestedOf (stockEntries (buy none pf s q dt).1 s) = none := by
      apply sumOpt_none_of_mem
      exact List.mem_map.mpr ⟨_, hentries, rfl⟩
    have hagg : stockAggregate oracle (buy none pf s q dt).1 s = none := by
      simp [stockAggregate, hti]
    simp [calculate_totals,
      mapOpt_none_of_mem (stockAggregate oracle (buy none pf s q dt).1) _ s hs hagg]

/-- C7: starting from a ledger whose quantities are all non-negative, buy
(with the positive quantity the input widget enforces), any completed
sell, and clear keep every quantity non-negative; moreover a sell that
reports "Not enough quantity" returns the ledger unchanged. -/
theorem lot_quantities_stay_nonneg (pf : List Lot) (lp : Option ℚ)
    (oracle : Oracle) (s s2 : String) (q q2 : Int) (dt : String)
    (r : SellResult) (hpf : ∀ e ∈ pf, 0 ≤ e.quantity) (hq : 1 ≤ q)
    (hr : sell oracle pf s2 q2 = some r) :
    (∀ e ∈ (buy lp pf s q dt).1, 0 ≤ e.quantity) ∧
    (∀ e ∈ r.portfolio, 0 ≤ e.quantity) ∧
    (r.msg = some SellMsg.notEnough → r.portfolio = pf) ∧
    (∀ e ∈ clearPortfolio.1, 0 ≤ e.quantity) := by
  have hsell : (∀ e ∈ r.portfolio, 0 ≤ e.quantity) ∧
      (r.msg = some SellMsg.notEnough → r.portfolio = pf) := by
    cases hor : oracle s2 with
    | none =>
        unfold sell at hr
        rw [hor] at hr
        injection hr with hr
        subst hr
        exact ⟨hpf, by intro hm; simp at hm⟩
    | some p =>
        unfold sell at hr
        rw [hor] at hr
        obtain ⟨⟨l, m, b⟩, hscan, rfl⟩ := Option.map_eq_some'.mp hr
        refine ⟨sellScan_quantity_nonneg s2 q2 p pf hpf _ hscan, ?_⟩
        intro hm
        simp only at hm
        subst hm
        exact (sellScan_notEnough_unchanged s2 q2 p pf l b hscan).1
  refine ⟨?_, hsell.1, hsell.2, ?_⟩
  · intro e he
    rcases List.mem_append.mp he with hmem | hmem
    · exact hpf e hmem
    · rw [List.mem_singleton.mp hmem]
      exact le_trans (by decide) hq
  · intro e he
    cases he

theorem lot_quantities_stay_nonneg_witness :
    (∀ e ∈ (buy (some 50) [⟨"X", 10, some 100, "2024-01-01"⟩] "Y" 2 "2024-05-01").1,
       0 ≤ e.quantity) ∧
    (∀ e ∈ (⟨[⟨"X", 6, some 100, "2024-01-01"⟩],
        some (SellMsg.success ((120 - 100) * ((4 : Int) : ℚ))), true⟩ : SellResult).portfolio,
       0 ≤ e.quantity) ∧
    ((⟨[⟨"X", 6, some 100, "2024-01-01"⟩],
        some (SellMsg.success ((120 - 100) * ((4 : Int) : ℚ))), true⟩ : SellResult).msg =
          some SellMsg.notEnough →
      (⟨[⟨"X", 6, some 100, "2024-01-01"⟩],
        some (SellMsg.success ((120 - 100) * ((4 : Int) : ℚ))), true⟩ : SellResult).portfolio =
        [⟨"X", 10, some 100, "2024-01-01"⟩]) ∧
    (∀ e ∈ clearPortfolio.1, 0 ≤ e.quantity) := by
  apply lot_quantities_stay_nonneg [⟨"X", 10, some 100, "2024-01-01"⟩] (some 50)
    (fun _ => some 120) "Y" "X" 2 4 "2024-05-01"
  · intro e he
    rw [List.mem_singleton.mp he]
    decide
  · decide
  · have h := sellScan_match_sufficient "X" 4 120 100
      ⟨"X", 10, some 100, "2024-01-01"⟩ [] rfl rfl (by decide)
    simp only [sell, h]
    norm_num

/-- C10: when the requested symbol has no lot in the ledger (and a sell
price was fetched), the sell loop falls through without touching any lot,
without saving, and without reporting success or any error. -/
theorem sell_unknown_symbol_silent_noop (oracle : Oracle) (pf : List Lot)
    (s : String) (q : Int) (p : ℚ)
    (hmatch : ∀ e ∈ pf, e.stock ≠ s) (hor : oracle s = some p) :
    sell oracle pf s q = some ⟨pf, none, false⟩ := by
  simp only [sell, hor, sellScan_no_match s q p pf hmatch]
  rfl

theorem sell_unknown_symbol_silent_noop_witness :
    sell (fun _ => some 5) [⟨"Y", 2, some 3, "2024-02-02"⟩] "X" 1 =
      some ⟨[⟨"Y", 2, some 3, "2024-02-02"⟩], none, false⟩ :=
  sell_unknown_symbol_silent_noop (fun _ => some 5) [⟨"Y", 2, some 3, "2024-02-02"⟩]
    "X" 1 5 (by simp) rfl

/-! ## Helper lemmas about aggregation -/

theorem totalInvestedOf_eq_sum (l : List Lot) (h : ∀ e ∈ l, e.buyPrice.isSome) :
    totalInvestedOf l = some ((l.map investedOf).sum) := by
  induction l with
  | nil => rfl
  | cons e es ih =>
      obtain ⟨p, hp⟩ := Option.isSome_iff_exists.mp (h e (List.mem_cons_self _ _))
      have hes := ih (fun x hx => h x (List.mem_cons_of_mem _ hx))
      have hes2 : sumOpt (es.map (fun entry =>
          entry.buyPrice.map (fun pr => pr * (entry.quantity : ℚ)))) =
          some ((es.map investedOf).sum) := hes
      simp [totalInvestedOf, List.map_cons, hp, sumOpt, hes2, investedOf]

theorem stockAggregate_eq_aggValue (oracle : Oracle) (pf : List Lot) (s : String)
    (h : ∀ e ∈ stockEntries pf s, e.buyPrice.isSome) :
    stockAggregate oracle pf s = some (aggValue oracle pf s) := by
  have hti := totalInvestedOf_eq_sum _ h
  cases hor : oracle s <;> simp [stockAggregate, aggValue, hti, hor]

theorem mapOpt_eq_map (f : α → Option β) (g : α → β) (l : List α)
    (h : ∀ x ∈ l, f x = some (g x)) : mapOpt f l = some (l.map g) := by
  induction l with
  | nil => rfl
  | cons x xs ih =>
      simp [mapOpt, h x (List.mem_cons_self _ _),
        ih (fun y hy => h y (List.mem_cons_of_mem _ hy))]

theorem calculate_totals_eq (oracle : Oracle) (pf : List Lot)
    (h : ∀ e ∈ pf, e.buyPrice.isSome) :
    calculate_totals oracle pf =
      some (((distinctStocks pf).map (aggValue oracle pf)).map toStockTotal,
        (((distinctStocks pf).map (aggValue oracle pf)).map
          StockAggregate.totalInvested).sum,
        (((distinctStocks pf).map (aggValue oracle pf)).map
          StockAggregate.profitLoss).sum) := by
  have hmap : mapOpt (stockAggregate oracle pf) (distinctStocks pf) =
      some ((distinctStocks pf).map (aggValue oracle pf)) :=
    mapOpt_eq_map _ _ _ (fun s _ => stockAggregate_eq_aggValue oracle pf s
      (fun e he => h e (List.mem_filter.mp he).1))
  simp [calculate_totals, hmap]

theorem sum_map_zero (keys : List String) :
    (keys.map (fun _ => (0 : ℚ))).sum = 0 := by
  induction keys with
  | nil => rfl
  | cons k ks ih => simp [ih]

theorem sum_map_addf (g h : String → ℚ) (keys : List String) :
    (keys.map (fun k => g k + h k)).sum = (keys.map g).sum + (keys.map h).sum := by
  induction keys with
  | nil => simp
  | cons k ks ih =>
      simp only [List.map_cons, List.sum_cons, ih]
      ring

theorem sum_single_key (keys : List String) (s : String) (v : ℚ)
    (hnd : keys.Nodup) (hmem : s ∈ keys) :
    (keys.map (fun k => if s = k then v else 0)).sum = v := by
  induction keys with
  | nil => cases hmem
  | cons k ks ih =>
      rcases List.mem_cons.mp hmem with rfl | hmem'
      · have hnot : s ∉ ks := (List.nodup_cons.mp hnd).1
        have hz : ∀ k ∈ ks, (if s = k then v else (0 : ℚ)) = 0 := by
          intro k hk
          rw [if_neg]
          intro hc
          exact hnot (hc ▸ hk)
        simp only [List.map_cons, List.sum_cons, if_pos rfl, if_true,
          List.map_congr_left hz, sum_map_zero]
        ring
      · have hne : s ≠ k := by
          intro hc
          exact (List.nodup_cons.mp hnd).1 (hc ▸ hmem')
        simp only [List.map_cons, List.sum_cons, if_neg hne,
          ih (List.nodup_cons.mp hnd).2 hmem']
        ring

theorem grouped_invested_sum (f : Lot → ℚ) (keys : List String) (pf : List Lot)
    (hnd : keys.Nodup) (hmem : ∀ e ∈ pf, e.stock ∈ keys) :
    (keys.map (fun k => ((stockEntries pf k).map f).sum)).sum = (pf.map f).sum := by
  induction pf with
  | nil =>
      have hz : ∀ k ∈ keys, ((stockEntries ([] : List Lot) k).map f).sum = (0 : ℚ) := by
        intro k _
        rfl
      simp [List.map_congr_left hz, sum_map_zero]
  | cons e tl ih =>
      have he : e.stock ∈ keys := hmem e (List.mem_cons_self _ _)
      have htl : ∀ x ∈ tl, x.stock ∈ keys := fun x hx => hmem x (List.mem_cons_of_mem _ hx)
      have hstep : ∀ k ∈ keys,
          ((stockEntries (e :: tl) k).map f).sum
            = (if e.stock = k then f e else 0) + ((stockEntries tl k).map f).sum := by
        intro k _
        by_cases hek : e.stock = k
        · simp [stockEntries, List.filter_cons, hek]
        · simp [stockEntries, List.filter_cons, hek]
      rw [List.map_congr_left hstep, sum_map_addf,
        sum_single_key keys e.stock (f e) hnd he, ih htl]
      simp

theorem calculate_totals_scalar_invested (oracle : Oracle) (pf : List Lot)
    (h : ∀ e ∈ pf, e.buyPrice.isSome) :
    (calculate_totals oracle pf).map (fun r => r.2.1) =
      some ((pf.map investedOf).sum) := by
  rw [calculate_totals_eq oracle pf h]
  simp only [Option.map_some', Option.some.injEq, List.map_map]
  have hagg : (distinctStocks pf).map (StockAggregate.totalInvested ∘ aggValue oracle pf)
      = (distinctStocks pf).map (fun k => ((stockEntries pf k).map investedOf).sum) := by
    apply List.map_congr_left
    intro k _
    cases hor : oracle k <;> simp [aggValue, hor]
  rw [hagg, grouped_invested_sum investedOf (distinctStocks pf) pf
    (List.nodup_dedup _) (fun e he => List.mem_dedup.mpr (List.mem_map_of_mem _ he))]

/-! ## Claim theorems about aggregation -/

/-- C4: when the oracle has no price for a symbol, aggregation still
succeeds for that symbol, reports current value equal to the invested
amount and zero profit/loss (also in the formatted row), and, for
well-formed entries, contributes no negative value. -/
theorem aggregate_unavailable_price_break_even (oracle : Oracle) (pf : List Lot)
    (s : String) (hor : oracle s = none)
    (h : ∀ e ∈ stockEntries pf s, e.buyPrice.isSome) :
    stockAggregate oracle pf s = some (aggValue oracle pf s) ∧
    (aggValue oracle pf s).currentValue = (aggValue oracle pf s).totalInvested ∧
    (aggValue oracle pf s).profitLoss = 0 ∧
    (toStockTotal (aggValue oracle pf s)).currentValue =
      (toStockTotal (aggValue oracle pf s)).totalInvested ∧
    ((∀ e ∈ stockEntries pf s, 0 ≤ e.quantity ∧
        ∀ pr, e.buyPrice = some pr → 0 ≤ pr) →
      0 ≤ (aggValue oracle pf s).currentValue) := by
  refine ⟨stockAggregate_eq_aggValue oracle pf s h, ?_, ?_, ?_, ?_⟩
  · simp [aggValue, hor]
  · simp [aggValue, hor]
  · simp [aggValue, hor, toStockTotal]
  · intro hnn
    simp only [aggValue, hor]
    apply List.sum_nonneg
    intro x hx
    obtain ⟨e, he, rfl⟩ := List.mem_map.mp hx
    obtain ⟨hq, hpr⟩ := hnn e he
    unfold investedOf
    apply mul_nonneg
    · cases hbp : e.buyPrice with
      | none => simp
      | some pr => simpa using hpr pr hbp
    · exact_mod_cast hq

theorem aggregate_unavailable_price_break_even_witness :
    stockAggregate (fun _ => none) [⟨"Y", 5, some 100, "2024-08-01"⟩] "Y" =
      some (aggValue (fun _ => none) [⟨"Y", 5, some 100, "2024-08-01"⟩] "Y") ∧
    (aggValue (fun _ => none) [⟨"Y", 5, some 100, "2024-08-01"⟩] "Y").currentValue =
      (aggValue (fun _ => none) [⟨"Y", 5, some 100, "2024-08-01"⟩] "Y").totalInvested ∧
    (aggValue (fun _ => none) [⟨"Y", 5, some 100, "2024-08-01"⟩] "Y").profitLoss = 0 ∧
    (toStockTotal (aggValue (fun _ => none) [⟨"Y", 5, some 100, "2024-08-01"⟩] "Y")).currentValue =
      (toStockTotal (aggValue (fun _ => none) [⟨"Y", 5, some 100, "2024-08-01"⟩] "Y")).totalInvested ∧
    ((∀ e ∈ stockEntries [⟨"Y", 5, some 100, "2024-08-01"⟩] "Y", 0 ≤ e.quantity ∧
        ∀ pr, e.buyPrice = some pr → 0 ≤ pr) →
      0 ≤ (aggValue (fun _ => none) [⟨"Y", 5, some 100, "2024-08-01"⟩] "Y").currentValue) := by
  apply aggregate_unavailable_price_break_even (fun _ => none)
    [⟨"Y", 5, some 100, "2024-08-01"⟩] "Y" rfl
  intro e he
  simp [stockEntries] at he
  subst he
  rfl

/-- C5: every lot's symbol occurs exactly once among the grouping keys and
the lot belongs to its symbol's group, so the grouping partitions the
lots; and the portfolio-wide invested scalar equals the sum of
quantity * buy price over all lots. -/
theorem aggregate_partition_additivity (oracle : Oracle) (pf : List Lot)
    (h : ∀ e ∈ pf, e.buyPrice.isSome) :
    (∀ e ∈ pf, (distinctStocks pf).count e.stock = 1) ∧
    (∀ e ∈ pf, e ∈ stockEntries pf e.stock) ∧
    (calculate_totals oracle pf).map (fun r => r.2.1) =
      some ((pf.map investedOf).sum) := by
  refine ⟨?_, ?_, calculate_totals_scalar_invested oracle pf h⟩
  · intro e he
    exact List.count_eq_one_of_mem (List.nodup_dedup _)
      (List.mem_dedup.mpr (List.mem_map_of_mem _ he))
  · intro e he
    exact List.mem_filter.mpr ⟨he, by simp⟩

theorem aggregate_partition_additivity_witness :
    (∀ e ∈ [(⟨"A", 2, some 3, "2024-09-01"⟩ : Lot), ⟨"B", 1, some 5, "2024-09-02"⟩],
       (distinctStocks [(⟨"A", 2, some 3, "2024-09-01"⟩ : Lot),
         ⟨"B", 1, some 5, "2024-09-02"⟩]).count e.stock = 1) ∧
    (∀ e ∈ [(⟨"A", 2, some 3, "2024-09-01"⟩ : Lot), ⟨"B", 1, some 5, "2024-09-02"⟩],
       e ∈ stockEntries [(⟨"A", 2, some 3, "2024-09-01"⟩ : Lot),
         ⟨"B", 1, some 5, "2024-09-02"⟩] e.stock) ∧
    (calculate_totals (fun _ => some 4) [(⟨"A", 2, some 3, "2024-09-01"⟩ : Lot),
        ⟨"B", 1, some 5, "2024-09-02"⟩]).map (fun r => r.2.1) =
      some (([(⟨"A", 2, some 3, "2024-09-01"⟩ : Lot),
        ⟨"B", 1, some 5, "2024-09-02"⟩].map investedOf).sum) := by
  apply aggregate_partition_additivity (fun _ => some 4)
  intro e he
  simp at he
  rcases he with rfl | rfl <;> rfl

/-- C6 counterexample: two lots whose symbols are the one-character strings
lowercase x and uppercase X — equal up to letter case — produce two
distinct Positions, not the single one the claim requires: grouping uses
the exact string, with no case normalization.  (Only the number of
Positions is stated; how the two are ordered is an enumeration detail of
the symbol set.) -/
theorem case_differing_symbols_not_merged_cex :
    (calculate_totals (fun _ => none)
        [⟨"x", 1, some 10, "2024-06-01"⟩, ⟨"X", 1, some 20, "2024-06-02"⟩]).map
      (fun r => r.1.length) = some 2 ∧
    ("x" : String).data = ['x'] ∧ ("X" : String).data = ['X'] ∧
    Char.toUpper 'x' = Char.toUpper 'X' ∧ ("x" : String) ≠ "X" := by
  refine ⟨rfl, rfl, rfl, by decide, by decide⟩

/-- C6 amended: aggregation groups lots by the exact symbol string
(case-sensitive): every lot's symbol string appears exactly once among the
resulting Positions' symbols, and every Position's symbol is the exact
symbol string of some lot — so lots whose symbols differ only in case land
in different Positions.  No enumeration order of the distinct symbols is
asserted: the per-symbol loop iterates a Python set.  (The input widget
uppercases user-typed symbols before any lot is created, so lots made
through the app already carry uppercase symbols.) -/
theorem aggregate_groups_by_exact_symbol (oracle : Oracle) (pf : List Lot)
    (h : ∀ e ∈ pf, e.buyPrice.isSome) :
    (calculate_totals oracle pf).isSome ∧
    (∀ sts ti tpl, calculate_totals oracle pf = some (sts, ti, tpl) →
      (∀ e ∈ pf, (sts.map StockTotal.stock).count e.stock = 1) ∧
      (∀ st ∈ sts, st.stock ∈ pf.map Lot.stock)) := by
  have hc := calculate_totals_eq oracle pf h
  refine ⟨by rw [hc]; rfl, ?_⟩
  intro sts ti tpl heq
  rw [hc] at heq
  injection heq with heq
  have hsts : sts = ((distinctStocks pf).map (aggValue oracle pf)).map toStockTotal :=
    (congrArg Prod.fst heq).symm
  have hstocks : sts.map StockTotal.stock = distinctStocks pf := by
    rw [hsts]
    simp only [List.map_map]
    have hid : ∀ k ∈ distinctStocks pf,
        (StockTotal.stock ∘ toStockTotal ∘ aggValue oracle pf) k = k := by
      intro k _
      cases hor : oracle k <;> simp [aggValue, toStockTotal, hor]
    rw [List.map_congr_left hid]
    simp
  constructor
  · intro e he
    rw [hstocks]
    exact List.count_eq_one_of_mem (List.nodup_dedup _)
      (List.mem_dedup.mpr (List.mem_map_of_mem _ he))
  · intro st hst
    have hmem : st.stock ∈ sts.map StockTotal.stock := List.mem_map_of_mem _ hst
    rw [hstocks] at hmem
    exact List.mem_dedup.mp hmem

theorem aggregate_groups_by_exact_symbol_witness :
    (calculate_totals (fun _ => some 12)
        [⟨"INFY", 2, some 11, "2024-10-01"⟩, ⟨"TCS", 1, some 9, "2024-10-02"⟩,
         ⟨"INFY", 3, some 10, "2024-10-03"⟩]).isSome ∧
    (∀ sts ti tpl, calculate_totals (fun _ => some 12)
        [⟨"INFY", 2, some 11, "2024-10-01"⟩, ⟨"TCS", 1, some 9, "2024-10-02"⟩,
         ⟨"INFY", 3, some 10, "2024-10-03"⟩] = some (sts, ti, tpl) →
      (∀ e ∈ [(⟨"INFY", 2, some 11, "2024-10-01"⟩ : Lot),
          ⟨"TCS", 1, some 9, "2024-10-02"⟩, ⟨"INFY", 3, some 10, "2024-10-03"⟩],
        (sts.map StockTotal.stock).count e.stock = 1) ∧
      (∀ st ∈ sts, st.stock ∈ [(⟨"INFY", 2, some 11, "2024-10-01"⟩ : Lot),
          ⟨"TCS", 1, some 9, "2024-10-02"⟩,
          ⟨"INFY", 3, some 10, "2024-10-03"⟩].map Lot.stock)) := by
  apply aggregate_groups_by_exact_symbol (fun _ => some 12)
  intro e he
  simp at he
  rcases he with rfl | rfl | rfl <;> rfl

/-- C9 counterexample: for a one-lot ledger the aggregation's per-Position
monetary fields are the strings "₹100.00", "₹100.00" and "₹0.00" — rupee
currency symbol and two-decimal display rounding applied inside the core —
not plain numeric values. -/
theorem position_fields_are_formatted_strings_cex :
    calculate_totals (fun _ => none) [⟨"X", 1, some 100, "2024-07-01"⟩] =
      some ([⟨"X", 1, "₹100.00", "₹100.00", "₹0.00"⟩], 100, 0) ∧
    ("₹100.00" : String).data.head? = some '₹' := by
  constructor
  · simp [calculate_totals, distinctStocks, mapOpt, stockAggregate, stockEntries,
      totalQuantityOf, totalInvestedOf, sumOpt, toStockTotal, fmtRupee, fmt2,
      roundHalfEven]
    norm_num
    constructor <;> decide
  · rfl

/-- C9 amended: the two portfolio-wide scalars returned by aggregation are
plain exact numbers (the invested scalar is the unrounded sum of quantity
times buy price), while the per-Position monetary fields are
display-formatted strings, each beginning with the rupee currency
symbol. -/
theorem aggregate_scalars_numeric_positions_formatted (oracle : Oracle)
    (pf : List Lot) (h : ∀ e ∈ pf, e.buyPrice.isSome) :
    (calculate_totals oracle pf).map (fun r => r.2.1) =
      some ((pf.map investedOf).sum) ∧
    (∀ sts ti tpl, calculate_totals oracle pf = some (sts, ti, tpl) →
      ∀ st ∈ sts, (∃ t1, st.totalInvested = "₹" ++ t1) ∧
        (∃ t2, st.currentValue = "₹" ++ t2) ∧
        (∃ t3, st.profitLoss = "₹" ++ t3)) := by
  refine ⟨calculate_totals_scalar_invested oracle pf h, ?_⟩
  intro sts ti tpl heq st hst
  rw [calculate_totals_eq oracle pf h] at heq
  injection heq with heq
  have hsts : sts = ((distinctStocks pf).map (aggValue oracle pf)).map toStockTotal :=
    (congrArg Prod.fst heq).symm
  rw [hsts] at hst
  obtain ⟨a, -, rfl⟩ := List.mem_map.mp hst
  exact ⟨⟨fmt2 a.totalInvested, rfl⟩, ⟨fmt2 a.currentValue, rfl⟩,
    ⟨fmt2 a.profitLoss, rfl⟩⟩

theorem aggregate_scalars_numeric_positions_formatted_witness :
    (calculate_totals (fun _ => some 6) [⟨"W", 3, some 2, "2024-11-01"⟩]).map
      (fun r => r.2.1) = some (([(⟨"W", 3, some 2, "2024-11-01"⟩ : Lot)].map investedOf).sum) ∧
    (∀ sts ti tpl, calculate_totals (fun _ => some 6)
        [⟨"W", 3, some 2, "2024-11-01"⟩] = some (sts, ti, tpl) →
      ∀ st ∈ sts, (∃ t1, st.totalInvested = "₹" ++ t1) ∧
        (∃ t2, st.currentValue = "₹" ++ t2) ∧
        (∃ t3, st.profitLoss = "₹" ++ t3)) := by
  apply aggregate_scalars_numeric_positions_formatted (fun _ => some 6)
  intro e he
  rw [List.mem_singleton.mp he]
  rfl

/-! ## Claim theorem about persistence -/

theorem jsonToLot_lotToJson (l : Lot) : jsonToLot (lotToJson l) = some l := by
  cases l with
  | mk s q bp dt => cases bp <;> simp [lotToJson, jsonToLot]

/-- C8: loading the JSON written by save restores the ledger exactly,
entry for entry and field for field, and the empty ledger is written as
the empty JSON array, not as null. -/
theorem load_save_roundtrip :
    (∀ pf : List Lot, load_portfolio (some (save_portfolio pf)) = some pf) ∧
    save_portfolio [] = Json.arr [] := by
  constructor
  · intro pf
    induction pf with
    | nil => rfl
    | cons l ls ih =>
        have ih2 : mapOpt jsonToLot (ls.map lotToJson) = some ls := ih
        simp [save_portfolio, load_portfolio, mapOpt, jsonToLot_lotToJson, ih2]
  · rfl
